import Mathlib

/-!
Shallow embedding of `ismrmrdtools/coils.py` (coil sensitivity estimation via
the iterative Walsh method, and noise prewhitening), with theorems checking the
natural-language specification against the code.

Numpy/scipy floating-point arithmetic is modelled by exact real/complex
arithmetic (`ℝ`, `ℂ`).  A floating-point division by a zero norm produces NaN
in the source and poisons every value derived from it; this is modelled by
`Option`: a pixel whose power iteration divides by a zero norm yields `none`.
Python exceptions are modelled by `Except CoilsError`.
-/

open scoped Classical

noncomputable section

/-- Errors surfaced by the functions of `coils.py`, in the taxonomy used by the
specification together with the raw Python errors the code can actually raise:
`invalidShape` (the failed `assert` on `img.ndim`), `divisionByZero` (Python
`ZeroDivisionError`), `notPositiveDefinite` (`numpy.linalg.LinAlgError` from
`cholesky`). -/
inductive CoilsError where
  | invalidShape
  | divisionByZero
  | notPositiveDefinite
deriving DecidableEq

/-- Index mapping of scipy's default boundary mode `reflect`
(`(d c b a | a b c d | d c b a)`): the extension is periodic with period `2*n`,
and the second half of each period runs backwards. -/
def rIdx (n : ℕ) (i : ℤ) : ℕ :=
  (if i % (2 * (n : ℤ)) < (n : ℤ) then i % (2 * (n : ℤ))
   else 2 * (n : ℤ) - 1 - i % (2 * (n : ℤ))).toNat

/-- One pass of `scipy.ndimage.uniform_filter` along a single axis of length
`n`: the unweighted mean of the `k` samples at positions
`i - k/2, …, i - k/2 + k - 1` (centered window, `reflect` boundary). -/
def uf1 (k n : ℕ) (f : ℕ → ℝ) (i : ℕ) : ℝ :=
  (∑ j in Finset.range k, f (rIdx n ((i : ℤ) - ((k / 2 : ℕ) : ℤ) + (j : ℤ)))) / (k : ℝ)

/-- `scipy.ndimage.uniform_filter` on a 2D real array: successive 1D passes
along axis 0 then axis 1. -/
def uniform_filter2 (k ny nx : ℕ) (f : ℕ → ℕ → ℝ) : ℕ → ℕ → ℝ :=
  fun y x => uf1 k nx (fun b => uf1 k ny (fun a => f a b) y) x

/-- `scipy.ndimage.uniform_filter` on a 3D real array: successive 1D passes
along axes 0, 1, 2. -/
def uniform_filter3 (k nz ny nx : ℕ) (f : ℕ → ℕ → ℕ → ℝ) : ℕ → ℕ → ℕ → ℝ :=
  fun z y x =>
    uf1 k nx (fun c => uf1 k ny (fun b => uf1 k nz (fun a => f a b c) z) y) x

/-- `smooth(img, box)` from `coils.py` on a 2D complex image: the real and the
imaginary components are independently box-filtered and recombined. -/
def smooth2 (ny nx : ℕ) (img : ℕ → ℕ → ℂ) (box : ℕ) : ℕ → ℕ → ℂ :=
  fun y x => ⟨uniform_filter2 box ny nx (fun a b => (img a b).re) y x,
              uniform_filter2 box ny nx (fun a b => (img a b).im) y x⟩

/-- `smooth(img, box)` from `coils.py` on a 3D complex image. -/
def smooth3 (nz ny nx : ℕ) (img : ℕ → ℕ → ℕ → ℂ) (box : ℕ) : ℕ → ℕ → ℕ → ℂ :=
  fun z y x => ⟨uniform_filter3 box nz ny nx (fun a b c => (img a b c).re) z y x,
                uniform_filter3 box nz ny nx (fun a b c => (img a b c).im) z y x⟩

/-- The raw pointwise coil covariance formed in `calculate_csm_walsh`:
`Rs[p,q,y,x] = img[p,y,x] * conj(img[q,y,x])`. -/
def coilRs (img : ℕ → ℕ → ℕ → ℂ) (p q : ℕ) : ℕ → ℕ → ℂ :=
  fun y x => img p y x * (starRingEnd ℂ) (img q y x)

/-- The coil covariance after the smoothing step of `calculate_csm_walsh`:
`Rs[p,q] = smooth(Rs[p,q,:,:], smoothing)`. -/
def coilRsSmoothed (ny nx : ℕ) (img : ℕ → ℕ → ℕ → ℂ) (box p q : ℕ) : ℕ → ℕ → ℂ :=
  smooth2 ny nx (coilRs img p q) box

/-- `np.linalg.norm` of a complex vector of length `nc`: the Euclidean 2-norm
`sqrt (∑ |v p|²)`. -/
def cnorm (nc : ℕ) (v : ℕ → ℂ) : ℝ :=
  Real.sqrt (∑ p in Finset.range nc, Complex.normSq (v p))

/-- `np.dot(R, v)` for an `nc × nc` matrix and a length-`nc` vector. -/
def matVec (nc : ℕ) (R : ℕ → ℕ → ℂ) (v : ℕ → ℂ) : ℕ → ℂ :=
  fun p => ∑ q in Finset.range nc, R p q * v q

/-- The normalization step `lam = np.linalg.norm(v); v = v/lam` of
`calculate_csm_walsh`.  A zero norm is a floating-point division by zero whose
NaNs poison the rest of the pixel's computation: modelled as `none`. -/
def normalizeStep (nc : ℕ) (v : ℕ → ℂ) : Option ((ℕ → ℂ) × ℝ) :=
  if cnorm nc v = 0 then none
  else some (fun p => v p / ((cnorm nc v : ℝ) : ℂ), cnorm nc v)

/-- The `for iter in range(niter)` loop of `calculate_csm_walsh`: repeat
`v ← R·v; lam ← ‖v‖; v ← v/lam`. -/
def powerIter (nc : ℕ) (R : ℕ → ℕ → ℂ) : ℕ → ((ℕ → ℂ) × ℝ) → Option ((ℕ → ℂ) × ℝ)
  | 0, s => some s
  | Nat.succ n, s =>
    match normalizeStep nc (matVec nc R s.1) with
    | none => none
    | some s' => powerIter nc R n s'

/-- The per-pixel body of `calculate_csm_walsh`: `v = np.sum(R, axis=0)`
(so `v[q] = ∑ p, R[p,q]`), initial normalization, then `niter` power
iterations; the final `(v, lam)` is the pixel's sensitivity vector and power. -/
def walshPixel (nc : ℕ) (R : ℕ → ℕ → ℂ) (niter : ℕ) : Option ((ℕ → ℂ) × ℝ) :=
  match normalizeStep nc (fun q => ∑ p in Finset.range nc, R p q) with
  | none => none
  | some s => powerIter nc R niter s

/-- `calculate_csm_walsh(img, smoothing, niter)` from `coils.py` on a
`(nc, ny, nx)` coil image stack: pointwise covariance, smoothing of each
`(p,q)` plane, then the per-pixel power method.  The pixel value is
`some (v, lam)` — sensitivity vector `csm[:,y,x]` and power `rho[y,x]` — or
`none` when the pixel's computation divided by a zero norm (NaN). -/
def calculate_csm_walsh (nc ny nx : ℕ) (img : ℕ → ℕ → ℕ → ℂ)
    (smoothing niter : ℕ) : ℕ → ℕ → Option ((ℕ → ℂ) × ℝ) :=
  fun y x => walshPixel nc (fun p q => coilRsSmoothed ny nx img smoothing p q y x) niter

/-- The boundary of `calculate_csm_walsh` including its
`assert img.ndim == 3` guard: an input of any other rank fails before any
computation happens.  The array is given by its shape and its row-major flat
data. -/
def calculate_csm_walsh_checked (shape : List ℕ) (data : ℕ → ℂ)
    (smoothing niter : ℕ) : Except CoilsError (ℕ → ℕ → Option ((ℕ → ℂ) × ℝ)) :=
  match shape with
  | [nc, ny, nx] =>
      .ok (calculate_csm_walsh nc ny nx
        (fun c y x => data ((c * ny + y) * nx + x)) smoothing niter)
  | _ => .error .invalidShape

/-- Entry `(i, j)` of the lower-triangular Cholesky factor computed by
`np.linalg.cholesky` (LAPACK `potrf`, Cholesky–Banachiewicz recurrence):
zero above the diagonal, `sqrt(re(A i i) - ∑_{k<i} |L i k|²)` on the diagonal,
`(A i j - ∑_{k<j} L i k * conj(L j k)) / L j j` below it. -/
def cholEntry (A : ℕ → ℕ → ℂ) : ℕ → ℕ → ℂ
  | i, j =>
    if hij : i < j then 0
    else if hji : j < i then
      (A i j - ∑ k in (Finset.range j).attach,
          cholEntry A i k.1 * (starRingEnd ℂ) (cholEntry A j k.1)) / cholEntry A j j
    else
      (((Real.sqrt ((A i i).re - ∑ k in (Finset.range i).attach,
          Complex.normSq (cholEntry A i k.1))) : ℝ) : ℂ)
termination_by i j => (j, i)
decreasing_by
  · exact Prod.Lex.left _ _ (Finset.mem_range.mp k.2)
  · exact Prod.Lex.left _ _ (Finset.mem_range.mp k.2)
  · exact Prod.Lex.right _ hji
  · have hk := Finset.mem_range.mp k.2
    have hij' : i = j := by omega
    exact Prod.Lex.left _ _ (by omega)

/-- The `i`-th pivot of the Cholesky recurrence; LAPACK `potrf` (and hence
`np.linalg.cholesky`) succeeds exactly when every pivot is positive. -/
def cholPiv (A : ℕ → ℕ → ℂ) (i : ℕ) : ℝ :=
  (A i i).re - ∑ k in Finset.range i, Complex.normSq (cholEntry A i k)

/-- `np.linalg.cholesky` on an `n × n` complex matrix: `some L` with `L` the
lower-triangular factor when every pivot is positive, `none` (the raised
`LinAlgError`) otherwise. -/
def cholesky (n : ℕ) (A : Matrix (Fin n) (Fin n) ℂ) :
    Option (Matrix (Fin n) (Fin n) ℂ) :=
  let A' : ℕ → ℕ → ℂ := fun i j =>
    if h : i < n ∧ j < n then A ⟨i, h.1⟩ ⟨j, h.2⟩ else 0
  if ∀ i ∈ Finset.range n, 0 < cholPiv A' i then
    some (Matrix.of fun i j : Fin n => cholEntry A' i j)
  else none

/-- `calculate_prewhitening(noise, scale_factor)` from `coils.py` on noise data
already reshaped to `(nc, m)`:
`dmtx = (1/(M-1)) * N * N.H; dmtx = inv(cholesky(dmtx)); dmtx * sqrt(2) * sqrt(scale_factor)`.
`M` is a Python float, so `1/(M-1)` raises `ZeroDivisionError` when `M = 1`,
before the covariance or its factorization is formed. -/
def calculate_prewhitening (nc m : ℕ) (noise : Matrix (Fin nc) (Fin m) ℂ)
    (scale_factor : ℝ) : Except CoilsError (Matrix (Fin nc) (Fin nc) ℂ) :=
  if ((m : ℝ) - 1) = 0 then .error .divisionByZero
  else
    match cholesky nc ((1 / ((m : ℝ) - 1)) • (noise * noise.conjTranspose)) with
    | none => .error .notPositiveDefinite
    | some L => .ok ((Real.sqrt 2 * Real.sqrt scale_factor) • L⁻¹)

/-- The `estimate_whitening_matrix` contract as the specification words it
(§4.3): sample covariance `C = (1/(M-1))·N·Nᴴ`, Cholesky factorization of `C`
(`NotPositiveDefinite` on failure), inversion of the lower-triangular factor,
scaling by `sqrt 2 · sqrt scale_factor`.  Spec-side definition, to be compared
with the embedded `calculate_prewhitening`. -/
def estimate_whitening_matrix (nc m : ℕ) (noise : Matrix (Fin nc) (Fin m) ℂ)
    (scale_factor : ℝ) : Except CoilsError (Matrix (Fin nc) (Fin nc) ℂ) :=
  let C := (((m : ℝ) - 1)⁻¹) • (noise * noise.conjTranspose)
  match cholesky nc C with
  | none => .error .notPositiveDefinite
  | some L => .ok ((Real.sqrt 2 * Real.sqrt scale_factor) • L⁻¹)

/-- The per-pixel eigen-extraction exactly as claim C5 words it: the
initialization is the row-sum vector `v0 = ∑ q, R[:,q]` (so `v0[p] = ∑ q, R[p,q]`),
followed by the same normalization and `niter` power iterations. -/
def walshPixelRowInit (nc : ℕ) (R : ℕ → ℕ → ℂ) (niter : ℕ) : Option ((ℕ → ℂ) × ℝ) :=
  match normalizeStep nc (fun p => ∑ q in Finset.range nc, R p q) with
  | none => none
  | some s => powerIter nc R niter s

/-- Spec-style fixed-count loop (amended claim C5): `niter` repetitions of
`v ← R·v; λ ← ‖v‖; v ← v/λ` over an optional state, with no adaptive
stopping rule. -/
def walshLoop (nc : ℕ) (R : ℕ → ℕ → ℂ) :
    ℕ → Option ((ℕ → ℂ) × ℝ) → Option ((ℕ → ℂ) × ℝ)
  | 0, st => st
  | Nat.succ n, st =>
      walshLoop nc R n (st.bind fun s => normalizeStep nc (matVec nc R s.1))

/-- The per-pixel eigen-extraction as amended claim C5 words it: initialize
with the sum along the first axis (`v0[q] = ∑ p, R[p,q]`), normalize, then run
the fixed-count loop. -/
def walshPixelSpec (nc : ℕ) (R : ℕ → ℕ → ℂ) (niter : ℕ) : Option ((ℕ → ℂ) × ℝ) :=
  walshLoop nc R niter (normalizeStep nc (fun q => ∑ p in Finset.range nc, R p q))

/-- The 2-coil 4×4 constant image stack of the spec's concrete scenario:
coil 0 is `1+0j`, coil 1 is `0+1j`, at every pixel. -/
def imgTwoCoil : ℕ → ℕ → ℕ → ℂ :=
  fun c _ _ => if c = 0 then 1 else Complex.I

/-- The constant local covariance matrix produced by that scenario. -/
def RcTwoCoil : ℕ → ℕ → ℂ :=
  fun p q => (if p = 0 then 1 else Complex.I) *
    (starRingEnd ℂ) (if q = 0 then 1 else Complex.I)

/-- The fixed point of the row-sum-initialized power iteration on `RcTwoCoil`. -/
def vFixTwoCoil : ℕ → ℂ :=
  fun p => (∑ q in Finset.range 2, RcTwoCoil p q) / ((2 : ℝ) : ℂ)

/-- A single-coil `(1, 1, 2)` image stack with pixel values `1` and `0`. -/
def imgOneCoil : ℕ → ℕ → ℕ → ℂ :=
  fun _ _ x => if x = 0 then 1 else 0

end

theorem rIdx_of_lt {n i : ℕ} (h : i < n) : rIdx n i = i := by
  unfold rIdx
  have h2 : ((i : ℕ) : ℤ) % (2 * (n : ℤ)) = (i : ℤ) := by
    apply Int.emod_eq_of_lt (by positivity)
    exact_mod_cast Nat.lt_of_lt_of_le h (by omega)
  rw [h2, if_pos (by exact_mod_cast h)]
  simp

theorem uf1_const {k : ℕ} (n : ℕ) (c : ℝ) (i : ℕ) (hk : k ≠ 0) :
    uf1 k n (fun _ => c) i = c := by
  unfold uf1
  rw [Finset.sum_const, Finset.card_range, nsmul_eq_mul]
  field_simp

theorem uf1_zero (k n : ℕ) (i : ℕ) : uf1 k n (fun _ => 0) i = 0 := by
  simp [uf1]

theorem uf1_neg (k n : ℕ) (f : ℕ → ℝ) (i : ℕ) :
    uf1 k n (fun j => -f j) i = -uf1 k n f i := by
  simp [uf1, Finset.sum_neg_distrib, neg_div]

theorem uniform_filter2_const {k : ℕ} (ny nx : ℕ) (c : ℝ) (y x : ℕ) (hk : k ≠ 0) :
    uniform_filter2 k ny nx (fun _ _ => c) y x = c := by
  unfold uniform_filter2
  have h1 : (fun b => uf1 k ny (fun _ => c) y) = fun _ : ℕ => c := by
    funext b; exact uf1_const ny c y hk
  rw [h1, uf1_const nx c x hk]

theorem smooth2_const {box : ℕ} (ny nx : ℕ) (c : ℂ) (y x : ℕ) (hk : box ≠ 0) :
    smooth2 ny nx (fun _ _ => c) box y x = c := by
  unfold smooth2
  rw [Complex.ext_iff]
  constructor
  · exact uniform_filter2_const ny nx c.re y x hk
  · exact uniform_filter2_const ny nx c.im y x hk

theorem uf1_box_one {n i : ℕ} (f : ℕ → ℝ) (h : i < n) : uf1 1 n f i = f i := by
  unfold uf1
  rw [Finset.sum_range_one]
  norm_num [rIdx_of_lt h]

theorem uniform_filter2_box_one {ny nx y x : ℕ} (f : ℕ → ℕ → ℝ)
    (hy : y < ny) (hx : x < nx) : uniform_filter2 1 ny nx f y x = f y x := by
  unfold uniform_filter2
  rw [uf1_box_one _ hx, uf1_box_one _ hy]

theorem smooth2_box_one {ny nx y x : ℕ} (img : ℕ → ℕ → ℂ)
    (hy : y < ny) (hx : x < nx) : smooth2 ny nx img 1 y x = img y x := by
  unfold smooth2
  rw [Complex.ext_iff]
  constructor
  · show uniform_filter2 1 ny nx (fun a b => (img a b).re) y x = _
    rw [uniform_filter2_box_one _ hy hx]
  · show uniform_filter2 1 ny nx (fun a b => (img a b).im) y x = _
    rw [uniform_filter2_box_one _ hy hx]

theorem uf1_box_one_3 {n i : ℕ} (f : ℕ → ℝ) (h : i < n) : uf1 1 n f i = f i :=
  uf1_box_one f h

theorem uniform_filter3_box_one {nz ny nx z y x : ℕ} (f : ℕ → ℕ → ℕ → ℝ)
    (hz : z < nz) (hy : y < ny) (hx : x < nx) :
    uniform_filter3 1 nz ny nx f z y x = f z y x := by
  unfold uniform_filter3
  rw [uf1_box_one _ hx, uf1_box_one _ hy, uf1_box_one _ hz]

theorem smooth3_box_one {nz ny nx z y x : ℕ} (img : ℕ → ℕ → ℕ → ℂ)
    (hz : z < nz) (hy : y < ny) (hx : x < nx) :
    smooth3 nz ny nx img 1 z y x = img z y x := by
  unfold smooth3
  rw [Complex.ext_iff]
  constructor
  · show uniform_filter3 1 nz ny nx (fun a b c => (img a b c).re) z y x = _
    rw [uniform_filter3_box_one _ hz hy hx]
  · show uniform_filter3 1 nz ny nx (fun a b c => (img a b c).im) z y x = _
    rw [uniform_filter3_box_one _ hz hy hx]

theorem cnorm_nonneg (nc : ℕ) (v : ℕ → ℂ) : 0 ≤ cnorm nc v :=
  Real.sqrt_nonneg _

theorem cnorm_sq (nc : ℕ) (v : ℕ → ℂ) :
    cnorm nc v ^ 2 = ∑ p in Finset.range nc, Complex.normSq (v p) := by
  unfold cnorm
  exact Real.sq_sqrt (Finset.sum_nonneg fun p _ => Complex.normSq_nonneg _)

theorem normalizeStep_some_norm {nc : ℕ} {w : ℕ → ℂ} {s : (ℕ → ℂ) × ℝ}
    (h : normalizeStep nc w = some s) : cnorm nc s.1 = 1 := by
  unfold normalizeStep at h
  by_cases h0 : cnorm nc w = 0
  · rw [if_pos h0] at h; exact absurd h (by simp)
  · rw [if_neg h0] at h
    have hs : s = (fun p => w p / ((cnorm nc w : ℝ) : ℂ), cnorm nc w) :=
      (Option.some_injective _ h).symm
    subst hs
    have hpos : 0 < cnorm nc w := lt_of_le_of_ne (cnorm_nonneg nc w) (Ne.symm h0)
    have hterm : ∀ p, Complex.normSq (w p / ((cnorm nc w : ℝ) : ℂ)) =
        Complex.normSq (w p) / (cnorm nc w ^ 2) := by
      intro p
      rw [Complex.normSq_div, Complex.normSq_ofReal, sq]
    have hsum : ∑ p in Finset.range nc,
        Complex.normSq (w p / ((cnorm nc w : ℝ) : ℂ)) = 1 := by
      rw [Finset.sum_congr rfl fun p _ => hterm p, ← Finset.sum_div,
        ← cnorm_sq nc w, div_self (by positivity)]
    show cnorm nc (fun p => w p / ((cnorm nc w : ℝ) : ℂ)) = 1
    have hdef : cnorm nc (fun p => w p / ((cnorm nc w : ℝ) : ℂ)) =
        Real.sqrt (∑ p in Finset.range nc,
          Complex.normSq (w p / ((cnorm nc w : ℝ) : ℂ))) := rfl
    rw [hdef, hsum, Real.sqrt_one]

theorem uniform_filter2_neg (k ny nx : ℕ) (f : ℕ → ℕ → ℝ) (y x : ℕ) :
    uniform_filter2 k ny nx (fun a b => -f a b) y x =
      -uniform_filter2 k ny nx f y x := by
  unfold uniform_filter2
  have h1 : (fun b => uf1 k ny (fun a => -f a b) y) =
      fun b => -uf1 k ny (fun a => f a b) y := by
    funext b; exact uf1_neg k ny _ y
  rw [h1]
  exact uf1_neg k nx _ x

theorem coilRs_conj (img : ℕ → ℕ → ℕ → ℂ) (p q y x : ℕ) :
    coilRs img p q y x = (starRingEnd ℂ) (coilRs img q p y x) := by
  unfold coilRs
  rw [map_mul, Complex.conj_conj, mul_comm]

theorem powerIter_some_cases {nc : ℕ} {R : ℕ → ℕ → ℂ} :
    ∀ {n : ℕ} {s out : (ℕ → ℂ) × ℝ}, powerIter nc R n s = some out →
      out = s ∨ ∃ w, normalizeStep nc w = some out := by
  intro n
  induction n with
  | zero =>
    intro s out h
    simp only [powerIter] at h
    exact Or.inl (Option.some_injective _ h).symm
  | succ n ih =>
    intro s out h
    simp only [powerIter] at h
    cases hnz : normalizeStep nc (matVec nc R s.1) with
    | none => rw [hnz] at h; exact absurd h (by simp)
    | some s' =>
      rw [hnz] at h
      rcases ih h with h1 | h2
      · exact Or.inr ⟨matVec nc R s.1, h1 ▸ hnz⟩
      · exact Or.inr h2

theorem walshPixel_some_norm {nc niter : ℕ} {R : ℕ → ℕ → ℂ} {v : ℕ → ℂ} {lam : ℝ}
    (h : walshPixel nc R niter = some (v, lam)) : cnorm nc v = 1 := by
  unfold walshPixel at h
  cases hnz : normalizeStep nc (fun q => ∑ p in Finset.range nc, R p q) with
  | none => rw [hnz] at h; exact absurd h (by simp)
  | some s =>
    rw [hnz] at h
    rcases powerIter_some_cases h with h1 | ⟨w, hw⟩
    · rw [← h1] at hnz
      exact @normalizeStep_some_norm nc _ (v, lam) hnz
    · exact @normalizeStep_some_norm nc w (v, lam) hw

/-- C2: for every valid coil image stack and every pixel where the power
method never divides by a zero norm (the pixel result is defined), the
returned sensitivity vector has Euclidean 2-norm exactly 1 across the coil
axis. -/
theorem csm_unit_norm (nc ny nx : ℕ) (img : ℕ → ℕ → ℕ → ℂ)
    (smoothing niter y x : ℕ) (v : ℕ → ℂ) (lam : ℝ)
    (h : calculate_csm_walsh nc ny nx img smoothing niter y x = some (v, lam)) :
    cnorm nc v = 1 := by
  unfold calculate_csm_walsh at h
  exact walshPixel_some_norm h

theorem csm_const_one_eval :
    calculate_csm_walsh 1 1 1 (fun _ _ _ => 1) 1 0 0 0 = some (fun _ => 1, 1) := by
  unfold calculate_csm_walsh
  have hR : (fun p q => coilRsSmoothed 1 1 (fun _ _ _ => 1) 1 p q 0 0) =
      fun _ _ : ℕ => (1 : ℂ) := by
    funext p q
    unfold coilRsSmoothed
    rw [smooth2_box_one _ (by norm_num) (by norm_num)]
    simp [coilRs]
  rw [hR]
  unfold walshPixel
  have hv0 : (fun q => ∑ p in Finset.range 1, (fun _ _ : ℕ => (1 : ℂ)) p q) =
      fun _ : ℕ => (1 : ℂ) := by
    funext q; simp
  rw [hv0]
  have hc : cnorm 1 (fun _ : ℕ => (1 : ℂ)) = 1 := by
    unfold cnorm; simp
  have hn : normalizeStep 1 (fun _ : ℕ => (1 : ℂ)) = some (fun _ : ℕ => (1 : ℂ), 1) := by
    unfold normalizeStep
    rw [hc, if_neg one_ne_zero]
    have hv : (fun p : ℕ => (1 : ℂ) / (((1 : ℝ)) : ℂ)) = fun _ : ℕ => (1 : ℂ) := by
      funext p; norm_num
    rw [hv]
  rw [hn]
  rfl

/-- C2 witness: a concrete constant single-coil input whose pixel result is
defined, with unit-norm sensitivity. -/
theorem csm_unit_norm_witness :
    calculate_csm_walsh 1 1 1 (fun _ _ _ => 1) 1 0 0 0 = some (fun _ => 1, 1) ∧
    cnorm 1 (fun _ => 1) = 1 :=
  ⟨csm_const_one_eval,
    csm_unit_norm 1 1 1 (fun _ _ _ => 1) 1 0 0 0 (fun _ => 1) 1 csm_const_one_eval⟩

/-- C3: for every noise matrix with at least 2 samples per coil,
`calculate_prewhitening` agrees with the specification's pipeline: sample
covariance `(1/(M-1))·N·Nᴴ`, Cholesky factorization, inversion of the
lower-triangular factor, scaling by `sqrt 2 · sqrt scale_factor`. -/
theorem prewhitening_eq_spec (nc m : ℕ) (noise : Matrix (Fin nc) (Fin m) ℂ)
    (s : ℝ) (hm : 2 ≤ m) :
    calculate_prewhitening nc m noise s = estimate_whitening_matrix nc m noise s := by
  unfold calculate_prewhitening estimate_whitening_matrix
  have h2 : (2 : ℝ) ≤ (m : ℝ) := by exact_mod_cast hm
  have h1 : ((m : ℝ) - 1) ≠ 0 := ne_of_gt (by linarith)
  rw [if_neg h1, one_div]

/-- C3 witness. -/
theorem prewhitening_eq_spec_witness :
    2 ≤ 2 ∧
    calculate_prewhitening 1 2 (Matrix.of fun _ _ => (1 : ℂ)) 1 =
      estimate_whitening_matrix 1 2 (Matrix.of fun _ _ => (1 : ℂ)) 1 :=
  ⟨by norm_num, prewhitening_eq_spec 1 2 (Matrix.of fun _ _ => (1 : ℂ)) 1 (by norm_num)⟩

/-- C4 (amended): on a noise array with exactly 1 sample per coil,
`calculate_prewhitening` raises the Python `ZeroDivisionError` from
`1/(M-1)` — surfaced to the caller, no partial result — rather than the
`NotPositiveDefinite` (`LinAlgError`) the claim names, which could only come
from the (never reached) Cholesky factorization. -/
theorem prewhitening_one_sample (nc : ℕ) (noise : Matrix (Fin nc) (Fin 1) ℂ)
    (s : ℝ) :
    calculate_prewhitening nc 1 noise s = .error .divisionByZero := by
  unfold calculate_prewhitening
  rw [if_pos (by norm_num)]

/-- C4 counterexample: at a concrete 1-sample noise array the raised error is
the division-by-zero error, which is not the NotPositiveDefinite error. -/
theorem prewhitening_one_sample_cex :
    calculate_prewhitening 2 1 (Matrix.of fun _ _ => (1 : ℂ)) 1 =
      .error .divisionByZero ∧
    CoilsError.divisionByZero ≠ CoilsError.notPositiveDefinite := by
  constructor
  · unfold calculate_prewhitening
    rw [if_pos (by norm_num)]
  · decide

/-- C7: the coil covariance field is Hermitian in its coil indices at every
spatial location, both as first formed from `img[p]*conj(img[q])` and after
the smoothing filter has been applied to every `(p,q)` plane. -/
theorem covariance_hermitian (ny nx : ℕ) (img : ℕ → ℕ → ℕ → ℂ)
    (box p q y x : ℕ) :
    coilRs img p q y x = (starRingEnd ℂ) (coilRs img q p y x) ∧
    coilRsSmoothed ny nx img box p q y x =
      (starRingEnd ℂ) (coilRsSmoothed ny nx img box q p y x) := by
  refine ⟨coilRs_conj img p q y x, ?_⟩
  have hre : (fun a b => (coilRs img p q a b).re) =
      fun a b => (coilRs img q p a b).re := by
    funext a b
    rw [coilRs_conj img p q a b, Complex.conj_re]
  have him : (fun a b => (coilRs img p q a b).im) =
      fun a b => -((coilRs img q p a b).im) := by
    funext a b
    rw [coilRs_conj img p q a b, Complex.conj_im]
  unfold coilRsSmoothed smooth2
  rw [Complex.ext_iff]
  constructor
  · show uniform_filter2 box ny nx (fun a b => (coilRs img p q a b).re) y x = _
    rw [hre]
    rw [Complex.conj_re]
  · show uniform_filter2 box ny nx (fun a b => (coilRs img p q a b).im) y x = _
    rw [him, uniform_filter2_neg, Complex.conj_im]

/-- C8: `smooth` with window size 1 is the identity on the values of a 2D or
3D complex field, and hence smoothing twice with window 1 equals smoothing
once. -/
theorem smooth_window_one_identity (ny nx nz : ℕ) (img2 : ℕ → ℕ → ℂ)
    (img3 : ℕ → ℕ → ℕ → ℂ) (y x z : ℕ)
    (hy : y < ny) (hx : x < nx) (hz : z < nz) :
    smooth2 ny nx img2 1 y x = img2 y x ∧
    smooth2 ny nx (smooth2 ny nx img2 1) 1 y x = smooth2 ny nx img2 1 y x ∧
    smooth3 nz ny nx img3 1 z y x = img3 z y x ∧
    smooth3 nz ny nx (smooth3 nz ny nx img3 1) 1 z y x =
      smooth3 nz ny nx img3 1 z y x :=
  ⟨smooth2_box_one img2 hy hx, smooth2_box_one _ hy hx,
   smooth3_box_one img3 hz hy hx, smooth3_box_one _ hz hy hx⟩

/-- C8 witness. -/
theorem smooth_window_one_identity_witness :
    (0 < 1 ∧ 0 < 1 ∧ 0 < 1) ∧
    smooth2 1 1 (fun _ _ => Complex.I) 1 0 0 = Complex.I :=
  ⟨⟨by norm_num, by norm_num, by norm_num⟩,
    (smooth_window_one_identity 1 1 1 (fun _ _ => Complex.I) (fun _ _ _ => 2)
      0 0 0 (by norm_num) (by norm_num) (by norm_num)).1⟩

/-- C9: `calculate_csm_walsh` requires exactly 3 dimensions; any other rank
fails with the shape error before any computation, returning no partial
result. -/
theorem csm_requires_rank_three (shape : List ℕ) (data : ℕ → ℂ)
    (smoothing niter : ℕ) (h : shape.length ≠ 3) :
    calculate_csm_walsh_checked shape data smoothing niter = .error .invalidShape := by
  cases shape with
  | nil => rfl
  | cons a t =>
    cases t with
    | nil => rfl
    | cons b t2 =>
      cases t2 with
      | nil => rfl
      | cons c t3 =>
        cases t3 with
        | nil => simp at h
        | cons d t4 => rfl

/-- C9 witness. -/
theorem csm_requires_rank_three_witness :
    ([2, 2] : List ℕ).length ≠ 3 ∧
    calculate_csm_walsh_checked [2, 2] (fun _ => 0) 5 3 = .error .invalidShape :=
  ⟨by decide, csm_requires_rank_three [2, 2] (fun _ => 0) 5 3 (by decide)⟩

/-- C10: the scale factor acts purely as the multiplicative scalar
`sqrt scale_factor` on the whitening matrix: for positive `s`, the result at
scale `s` is the result at scale 1 with every success value multiplied by
`sqrt s`. -/
theorem prewhitening_scale_factor (nc m : ℕ) (noise : Matrix (Fin nc) (Fin m) ℂ)
    (s : ℝ) (hs : 0 < s) :
    calculate_prewhitening nc m noise s =
      (calculate_prewhitening nc m noise 1).map (fun W => Real.sqrt s • W) := by
  unfold calculate_prewhitening
  by_cases hm : ((m : ℝ) - 1) = 0
  · rw [if_pos hm, if_pos hm]; rfl
  · rw [if_neg hm, if_neg hm]
    cases hch : cholesky nc ((1 / ((m : ℝ) - 1)) • (noise * noise.conjTranspose)) with
    | none => rfl
    | some L =>
      show Except.ok _ = Except.map _ (Except.ok _)
      simp only [Except.map]
      congr 1
      rw [Real.sqrt_one, mul_one, smul_smul, mul_comm]

/-- C10 witness. -/
theorem prewhitening_scale_factor_witness :
    (0 : ℝ) < 4 ∧
    calculate_prewhitening 1 2 (Matrix.of fun _ _ => (1 : ℂ)) 4 =
      (calculate_prewhitening 1 2 (Matrix.of fun _ _ => (1 : ℂ)) 1).map
        (fun W => Real.sqrt 4 • W) :=
  ⟨by norm_num,
    prewhitening_scale_factor 1 2 (Matrix.of fun _ _ => (1 : ℂ)) 4 (by norm_num)⟩

theorem sqrt_four : Real.sqrt 4 = 2 := by
  rw [show (4 : ℝ) = 2 ^ 2 by norm_num, Real.sqrt_sq (by norm_num : (0:ℝ) ≤ 2)]

theorem cnorm_two (v : ℕ → ℂ) :
    cnorm 2 v = Real.sqrt (Complex.normSq (v 0) + Complex.normSq (v 1)) := by
  unfold cnorm
  rw [Finset.sum_range_succ, Finset.sum_range_one]

theorem cnorm_one (v : ℕ → ℂ) : cnorm 1 v = Real.sqrt (Complex.normSq (v 0)) := by
  unfold cnorm
  rw [Finset.sum_range_one]

theorem normSq_one_add_I : Complex.normSq (1 + Complex.I) = 2 := by
  simp [Complex.normSq_apply]
  norm_num

theorem normSq_one_sub_I : Complex.normSq (1 - Complex.I) = 2 := by
  simp [Complex.normSq_apply]
  norm_num

theorem matVec_div (nc : ℕ) (R : ℕ → ℕ → ℂ) (u : ℕ → ℂ) (c : ℂ) :
    matVec nc R (fun p => u p / c) = fun p => matVec nc R u p / c := by
  funext p
  show (∑ q in Finset.range nc, R p q * (u q / c)) =
    (∑ q in Finset.range nc, R p q * u q) / c
  rw [Finset.sum_div]
  exact Finset.sum_congr rfl fun q _ => (mul_div_assoc _ _ _).symm

theorem powerIter_succ_none {nc n : ℕ} {R : ℕ → ℕ → ℂ} {s : (ℕ → ℂ) × ℝ}
    (h : cnorm nc (matVec nc R s.1) = 0) : powerIter nc R (n + 1) s = none := by
  show (match normalizeStep nc (matVec nc R s.1) with
        | none => none
        | some s' => powerIter nc R n s') = none
  unfold normalizeStep
  rw [if_pos h]

theorem walshPixel_none_first_iter {nc niter : ℕ} {R : ℕ → ℕ → ℂ} {c : ℝ}
    (hn : niter ≠ 0)
    (hcn : cnorm nc (fun q => ∑ p in Finset.range nc, R p q) = c)
    (h1 : cnorm nc (matVec nc R
      (fun q => (∑ p in Finset.range nc, R p q) / ((c : ℝ) : ℂ))) = 0) :
    walshPixel nc R niter = none := by
  unfold walshPixel
  by_cases h0 : cnorm nc (fun q => ∑ p in Finset.range nc, R p q) = 0
  · unfold normalizeStep
    rw [if_pos h0]
  · unfold normalizeStep
    rw [if_neg h0, hcn]
    obtain ⟨m, rfl⟩ : ∃ m, niter = m + 1 := ⟨niter - 1, by omega⟩
    exact powerIter_succ_none h1

theorem RcTwoCoil_00 : RcTwoCoil 0 0 = 1 := by simp [RcTwoCoil]

theorem RcTwoCoil_01 : RcTwoCoil 0 1 = -Complex.I := by
  simp [RcTwoCoil, Complex.conj_I]

theorem RcTwoCoil_10 : RcTwoCoil 1 0 = Complex.I := by simp [RcTwoCoil]

theorem RcTwoCoil_11 : RcTwoCoil 1 1 = 1 := by
  simp [RcTwoCoil, Complex.conj_I]

theorem RcTwoCoil_colSum0 : (∑ p in Finset.range 2, RcTwoCoil p 0) = 1 + Complex.I := by
  rw [Finset.sum_range_succ, Finset.sum_range_one, RcTwoCoil_00, RcTwoCoil_10]

theorem RcTwoCoil_colSum1 : (∑ p in Finset.range 2, RcTwoCoil p 1) = 1 - Complex.I := by
  rw [Finset.sum_range_succ, Finset.sum_range_one, RcTwoCoil_01, RcTwoCoil_11]
  ring

theorem coilRsSmoothed_twoCoil (p q y x : ℕ) :
    coilRsSmoothed 4 4 imgTwoCoil 5 p q y x = RcTwoCoil p q := by
  unfold coilRsSmoothed
  have hf : coilRs imgTwoCoil p q = fun _ _ : ℕ => RcTwoCoil p q := rfl
  rw [hf]
  exact smooth2_const 4 4 _ y x (by norm_num)

theorem cnorm_colSum_twoCoil :
    cnorm 2 (fun q => ∑ p in Finset.range 2, RcTwoCoil p q) = 2 := by
  rw [cnorm_two]
  rw [RcTwoCoil_colSum0, RcTwoCoil_colSum1, normSq_one_add_I, normSq_one_sub_I]
  rw [show (2 : ℝ) + 2 = 4 by norm_num, sqrt_four]

theorem matVec_colSum_zero (p : ℕ) :
    matVec 2 RcTwoCoil (fun q => ∑ p' in Finset.range 2, RcTwoCoil p' q) p = 0 := by
  unfold matVec
  rw [Finset.sum_range_succ, Finset.sum_range_one]
  show RcTwoCoil p 0 * (∑ p' in Finset.range 2, RcTwoCoil p' 0) +
    RcTwoCoil p 1 * (∑ p' in Finset.range 2, RcTwoCoil p' 1) = 0
  rw [RcTwoCoil_colSum0, RcTwoCoil_colSum1]
  have ha0 : RcTwoCoil p 0 = (if p = 0 then (1 : ℂ) else Complex.I) := by
    simp [RcTwoCoil]
  have ha1 : RcTwoCoil p 1 = (if p = 0 then (1 : ℂ) else Complex.I) * -Complex.I := by
    simp [RcTwoCoil, Complex.conj_I]
  rw [ha0, ha1]
  linear_combination (if p = 0 then (1 : ℂ) else Complex.I) * Complex.I_sq

theorem csm_twoCoil_none (y x : ℕ) :
    calculate_csm_walsh 2 4 4 imgTwoCoil 5 3 y x = none := by
  unfold calculate_csm_walsh
  have hR : (fun p q => coilRsSmoothed 4 4 imgTwoCoil 5 p q y x) = RcTwoCoil := by
    funext p q; exact coilRsSmoothed_twoCoil p q y x
  rw [hR]
  refine walshPixel_none_first_iter (by norm_num) cnorm_colSum_twoCoil ?_
  rw [matVec_div]
  rw [cnorm_two]
  rw [matVec_colSum_zero 0, matVec_colSum_zero 1]
  simp

/-- C1 (amended): in the 2-coil 4×4 constant scenario (`c0 = 1`, `c1 = i`) the
smoothed local covariance is the constant matrix `[[1, -i], [i, 1]]` at every
pixel, as the spec says; but the code's initialization vector
`np.sum(R, axis=0) = (1+i, 1-i)` lies in the kernel of that matrix, so the
first power iteration produces the zero vector and divides by its zero norm:
the pixel result is undefined (NaN, modelled `none`) at every pixel — not the
sensitivity `[1/sqrt 2, -i/sqrt 2]` and power 2.0 the claim states. -/
theorem walsh_two_coil_scenario (y x : ℕ) :
    (coilRsSmoothed 4 4 imgTwoCoil 5 0 0 y x = 1 ∧
     coilRsSmoothed 4 4 imgTwoCoil 5 0 1 y x = -Complex.I ∧
     coilRsSmoothed 4 4 imgTwoCoil 5 1 0 y x = Complex.I ∧
     coilRsSmoothed 4 4 imgTwoCoil 5 1 1 y x = 1) ∧
    calculate_csm_walsh 2 4 4 imgTwoCoil 5 3 y x = none := by
  refine ⟨⟨?_, ?_, ?_, ?_⟩, csm_twoCoil_none y x⟩
  · rw [coilRsSmoothed_twoCoil, RcTwoCoil_00]
  · rw [coilRsSmoothed_twoCoil, RcTwoCoil_01]
  · rw [coilRsSmoothed_twoCoil, RcTwoCoil_10]
  · rw [coilRsSmoothed_twoCoil, RcTwoCoil_11]

/-- C1 counterexample: at pixel (0,0) of the scenario the code produces no
power value at all (in particular not 2.0): the pixel result is `none`. -/
theorem walsh_two_coil_scenario_cex :
    ¬ ∃ v : ℕ → ℂ, calculate_csm_walsh 2 4 4 imgTwoCoil 5 3 0 0 = some (v, 2) := by
  rintro ⟨v, hv⟩
  rw [csm_twoCoil_none 0 0] at hv
  exact absurd hv (by simp)

theorem walshLoop_none (nc : ℕ) (R : ℕ → ℕ → ℂ) :
    ∀ n : ℕ, walshLoop nc R n none = none := by
  intro n
  induction n with
  | zero => rfl
  | succ n ih =>
    show walshLoop nc R n (Option.bind none _) = none
    exact ih

theorem powerIter_eq_walshLoop (nc : ℕ) (R : ℕ → ℕ → ℂ) :
    ∀ (n : ℕ) (s : (ℕ → ℂ) × ℝ),
      powerIter nc R n s = walshLoop nc R n (some s) := by
  intro n
  induction n with
  | zero => intro s; rfl
  | succ n ih =>
    intro s
    show (match normalizeStep nc (matVec nc R s.1) with
          | none => none
          | some s' => powerIter nc R n s') =
      walshLoop nc R n (Option.bind (some s) fun s' => normalizeStep nc (matVec nc R s'.1))
    cases hnz : normalizeStep nc (matVec nc R s.1) with
    | none =>
      show none = walshLoop nc R n (normalizeStep nc (matVec nc R s.1))
      rw [hnz, walshLoop_none]
    | some s' =>
      show powerIter nc R n s' = walshLoop nc R n (normalizeStep nc (matVec nc R s.1))
      rw [hnz, ih s']

theorem walshPixel_eq_spec (nc : ℕ) (R : ℕ → ℕ → ℂ) (niter : ℕ) :
    walshPixel nc R niter = walshPixelSpec nc R niter := by
  unfold walshPixel walshPixelSpec
  cases hnz : normalizeStep nc (fun q => ∑ p in Finset.range nc, R p q) with
  | none => rw [walshLoop_none]
  | some s => exact powerIter_eq_walshLoop nc R niter s

/-- C5 (amended): at every spatial location `calculate_csm_walsh` computes the
local eigenpair exactly as the claim describes — initial normalization, then
exactly `niter` repetitions of `v ← R·v; λ ← ‖v‖; v ← v/λ` with no adaptive
stopping rule, storing the final `λ` and `v` — except that the initialization
is the sum of the covariance along its FIRST axis, `v0[q] = ∑ p, R[p,q]`
(`np.sum(R, axis=0)`), not the row-sum vector `v0[p] = ∑ q, R[p,q]` the claim
states. -/
theorem walsh_pixel_procedure (nc ny nx : ℕ) (img : ℕ → ℕ → ℕ → ℂ)
    (box niter y x : ℕ) :
    calculate_csm_walsh nc ny nx img box niter y x =
      walshPixelSpec nc (fun p q => coilRsSmoothed ny nx img box p q y x) niter := by
  unfold calculate_csm_walsh
  exact walshPixel_eq_spec nc _ niter

theorem RcTwoCoil_rowSum0 : (∑ q in Finset.range 2, RcTwoCoil 0 q) = 1 - Complex.I := by
  rw [Finset.sum_range_succ, Finset.sum_range_one, RcTwoCoil_00, RcTwoCoil_01]
  ring

theorem RcTwoCoil_rowSum1 : (∑ q in Finset.range 2, RcTwoCoil 1 q) = 1 + Complex.I := by
  rw [Finset.sum_range_succ, Finset.sum_range_one, RcTwoCoil_10, RcTwoCoil_11]
  ring

theorem vFixTwoCoil_0 : vFixTwoCoil 0 = (1 - Complex.I) / ((2 : ℝ) : ℂ) := by
  unfold vFixTwoCoil
  rw [RcTwoCoil_rowSum0]

theorem vFixTwoCoil_1 : vFixTwoCoil 1 = (1 + Complex.I) / ((2 : ℝ) : ℂ) := by
  unfold vFixTwoCoil
  rw [RcTwoCoil_rowSum1]

theorem vFixTwoCoil_eq (p : ℕ) :
    vFixTwoCoil p = (RcTwoCoil p 0 + RcTwoCoil p 1) / ((2 : ℝ) : ℂ) := by
  unfold vFixTwoCoil
  rw [Finset.sum_range_succ, Finset.sum_range_one]

theorem matVec_vFix_twoCoil :
    matVec 2 RcTwoCoil vFixTwoCoil = fun p => ((2 : ℝ) : ℂ) * vFixTwoCoil p := by
  funext p
  unfold matVec
  rw [Finset.sum_range_succ, Finset.sum_range_one]
  show RcTwoCoil p 0 * vFixTwoCoil 0 + RcTwoCoil p 1 * vFixTwoCoil 1 =
    ((2 : ℝ) : ℂ) * vFixTwoCoil p
  have ha0 : RcTwoCoil p 0 = (if p = 0 then (1 : ℂ) else Complex.I) := by
    simp [RcTwoCoil]
  have ha1 : RcTwoCoil p 1 = (if p = 0 then (1 : ℂ) else Complex.I) * -Complex.I := by
    simp [RcTwoCoil, Complex.conj_I]
  rw [vFixTwoCoil_0, vFixTwoCoil_1, vFixTwoCoil_eq p, ha0, ha1]
  rw [show ((2 : ℝ) : ℂ) = (2 : ℂ) by norm_num]
  linear_combination (-(if p = 0 then (1 : ℂ) else Complex.I) / 2) * Complex.I_sq

theorem normalizeStep_fix_twoCoil :
    normalizeStep 2 (matVec 2 RcTwoCoil vFixTwoCoil) = some (vFixTwoCoil, 2) := by
  have e0 : ((2 : ℝ) : ℂ) * vFixTwoCoil 0 = 1 - Complex.I := by
    rw [vFixTwoCoil_0]
    push_cast
    field_simp
  have e1 : ((2 : ℝ) : ℂ) * vFixTwoCoil 1 = 1 + Complex.I := by
    rw [vFixTwoCoil_1]
    push_cast
    field_simp
  have hcn : cnorm 2 (matVec 2 RcTwoCoil vFixTwoCoil) = 2 := by
    rw [matVec_vFix_twoCoil, cnorm_two]
    show Real.sqrt (Complex.normSq (((2 : ℝ) : ℂ) * vFixTwoCoil 0) +
      Complex.normSq (((2 : ℝ) : ℂ) * vFixTwoCoil 1)) = 2
    rw [e0, e1, normSq_one_sub_I, normSq_one_add_I]
    rw [show (2 : ℝ) + 2 = 4 by norm_num, sqrt_four]
  unfold normalizeStep
  rw [hcn, if_neg two_ne_zero]
  have hv : (fun p => matVec 2 RcTwoCoil vFixTwoCoil p / ((2 : ℝ) : ℂ)) =
      vFixTwoCoil := by
    funext p
    rw [show matVec 2 RcTwoCoil vFixTwoCoil p = ((2 : ℝ) : ℂ) * vFixTwoCoil p from
      congrFun matVec_vFix_twoCoil p]
    push_cast
    have h2 : (2 : ℂ) ≠ 0 := two_ne_zero
    field_simp
  rw [hv]

theorem powerIter_fix_twoCoil (n : ℕ) :
    powerIter 2 RcTwoCoil n (vFixTwoCoil, 2) = some (vFixTwoCoil, 2) := by
  induction n with
  | zero => rfl
  | succ n ih =>
    show (match normalizeStep 2 (matVec 2 RcTwoCoil vFixTwoCoil) with
          | none => none
          | some s' => powerIter 2 RcTwoCoil n s') = some (vFixTwoCoil, 2)
    rw [normalizeStep_fix_twoCoil]
    exact ih

theorem rowInit_eval_twoCoil :
    walshPixelRowInit 2 RcTwoCoil 3 = some (vFixTwoCoil, 2) := by
  unfold walshPixelRowInit
  have hcr : cnorm 2 (fun p => ∑ q in Finset.range 2, RcTwoCoil p q) = 2 := by
    rw [cnorm_two]
    show Real.sqrt (Complex.normSq (∑ q in Finset.range 2, RcTwoCoil 0 q) +
      Complex.normSq (∑ q in Finset.range 2, RcTwoCoil 1 q)) = 2
    rw [RcTwoCoil_rowSum0, RcTwoCoil_rowSum1, normSq_one_sub_I, normSq_one_add_I]
    rw [show (2 : ℝ) + 2 = 4 by norm_num, sqrt_four]
  unfold normalizeStep
  rw [hcr, if_neg two_ne_zero]
  show powerIter 2 RcTwoCoil 3 (vFixTwoCoil, 2) = some (vFixTwoCoil, 2)
  exact powerIter_fix_twoCoil 3

/-- C5 counterexample: at pixel (0,0) of the 2-coil constant scenario the
code's pixel computation (column-sum initialization, which there divides by
zero and yields no result) differs from the row-sum-initialized procedure the
claim describes (which converges and yields a result). -/
theorem walsh_row_init_cex :
    calculate_csm_walsh 2 4 4 imgTwoCoil 5 3 0 0 ≠
      walshPixelRowInit 2 (fun p q => coilRsSmoothed 4 4 imgTwoCoil 5 p q 0 0) 3 := by
  have hR : (fun p q => coilRsSmoothed 4 4 imgTwoCoil 5 p q 0 0) = RcTwoCoil := by
    funext p q; exact coilRsSmoothed_twoCoil p q 0 0
  rw [csm_twoCoil_none 0 0, hR, rowInit_eval_twoCoil]
  simp

theorem uniform_filter2_zero (k ny nx y x : ℕ) :
    uniform_filter2 k ny nx (fun _ _ => 0) y x = 0 := by
  unfold uniform_filter2
  have h1 : (fun b => uf1 k ny (fun _ => (0 : ℝ)) y) = fun _ : ℕ => (0 : ℝ) := by
    funext b; exact uf1_zero k ny y
  rw [h1]
  exact uf1_zero k nx x

theorem coilRs_diag_im (img : ℕ → ℕ → ℕ → ℂ) (p a b : ℕ) :
    (coilRs img p p a b).im = 0 := by
  unfold coilRs
  rw [Complex.mul_conj]
  exact Complex.ofReal_im _

theorem coilRs_diag_re (img : ℕ → ℕ → ℕ → ℂ) (p a b : ℕ) :
    (coilRs img p p a b).re = Complex.normSq (img p a b) := by
  unfold coilRs
  rw [Complex.mul_conj]
  exact Complex.ofReal_re _

theorem coilRsSmoothed_diag_im (ny nx : ℕ) (img : ℕ → ℕ → ℕ → ℂ) (box p y x : ℕ) :
    (coilRsSmoothed ny nx img box p p y x).im = 0 := by
  unfold coilRsSmoothed smooth2
  show uniform_filter2 box ny nx (fun a b => (coilRs img p p a b).im) y x = 0
  have h : (fun a b => (coilRs img p p a b).im) = fun _ _ : ℕ => (0 : ℝ) := by
    funext a b; exact coilRs_diag_im img p a b
  rw [h]
  exact uniform_filter2_zero box ny nx y x

theorem coilRsSmoothed_diag_re (ny nx : ℕ) (img : ℕ → ℕ → ℕ → ℂ) (box p y x : ℕ) :
    (coilRsSmoothed ny nx img box p p y x).re =
      uniform_filter2 box ny nx (fun a b => Complex.normSq (img p a b)) y x := by
  unfold coilRsSmoothed smooth2
  show uniform_filter2 box ny nx (fun a b => (coilRs img p p a b).re) y x = _
  have h : (fun a b => (coilRs img p p a b).re) =
      fun a b => Complex.normSq (img p a b) := by
    funext a b; exact coilRs_diag_re img p a b
  rw [h]

theorem powerIter_one_coil (R : ℕ → ℕ → ℂ) (c : ℝ) (hc : 0 < c)
    (hR : R 0 0 = ((c : ℝ) : ℂ)) :
    ∀ (n : ℕ) (st : (ℕ → ℂ) × ℝ), st.1 0 = 1 → st.2 = c →
      ∃ w, powerIter 1 R n st = some (w, c) ∧ w 0 = 1 := by
  intro n
  induction n with
  | zero =>
    intro st h1 h2
    refine ⟨st.1, ?_, h1⟩
    show some st = some (st.1, c)
    rw [← h2]
  | succ n ih =>
    intro st h1 h2
    have hmv : matVec 1 R st.1 = fun p => R p 0 := by
      funext p
      show (∑ q in Finset.range 1, R p q * st.1 q) = R p 0
      rw [Finset.sum_range_one, h1, mul_one]
    have hcn : cnorm 1 (matVec 1 R st.1) = c := by
      rw [hmv, cnorm_one]
      show Real.sqrt (Complex.normSq (R 0 0)) = c
      rw [hR, Complex.normSq_ofReal, Real.sqrt_mul_self hc.le]
    have hns : normalizeStep 1 (matVec 1 R st.1) =
        some (fun p => matVec 1 R st.1 p / ((c : ℝ) : ℂ), c) := by
      unfold normalizeStep
      rw [hcn, if_neg (ne_of_gt hc)]
    have hst1 : (fun p => matVec 1 R st.1 p / ((c : ℝ) : ℂ)) 0 = 1 := by
      show matVec 1 R st.1 0 / ((c : ℝ) : ℂ) = 1
      rw [congrFun hmv 0, hR]
      exact div_self (Complex.ofReal_ne_zero.mpr (ne_of_gt hc))
    obtain ⟨w, hw, hw0⟩ :=
      ih (fun p => matVec 1 R st.1 p / ((c : ℝ) : ℂ), c) hst1 rfl
    refine ⟨w, ?_, hw0⟩
    show (match normalizeStep 1 (matVec 1 R st.1) with
          | none => none
          | some s' => powerIter 1 R n s') = some (w, c)
    rw [hns]
    exact hw

theorem walshPixel_one_coil (R : ℕ → ℕ → ℂ) (c : ℝ) (hc : 0 < c)
    (hR : R 0 0 = ((c : ℝ) : ℂ)) (niter : ℕ) :
    ∃ w, walshPixel 1 R niter = some (w, c) ∧ w 0 = 1 := by
  unfold walshPixel
  have hv0 : (fun q => ∑ p in Finset.range 1, R p q) = fun q => R 0 q := by
    funext q; rw [Finset.sum_range_one]
  rw [hv0]
  have hcn0 : cnorm 1 (fun q => R 0 q) = c := by
    rw [cnorm_one]
    show Real.sqrt (Complex.normSq (R 0 0)) = c
    rw [hR, Complex.normSq_ofReal, Real.sqrt_mul_self hc.le]
  have hns : normalizeStep 1 (fun q => R 0 q) =
      some (fun p => R 0 p / ((c : ℝ) : ℂ), c) := by
    unfold normalizeStep
    rw [hcn0, if_neg (ne_of_gt hc)]
  rw [hns]
  refine powerIter_one_coil R c hc hR niter _ ?_ rfl
  show R 0 0 / ((c : ℝ) : ℂ) = 1
  rw [hR]
  exact div_self (Complex.ofReal_ne_zero.mpr (ne_of_gt hc))

theorem walsh_single_coil_core (ny nx : ℕ) (img : ℕ → ℕ → ℕ → ℂ)
    (box niter y x : ℕ)
    (hs : 0 < (coilRsSmoothed ny nx img box 0 0 y x).re) :
    ∃ v, calculate_csm_walsh 1 ny nx img box niter y x =
      some (v, (coilRsSmoothed ny nx img box 0 0 y x).re) ∧ v 0 = 1 := by
  have hR00 : (fun p q => coilRsSmoothed ny nx img box p q y x) 0 0 =
      (((coilRsSmoothed ny nx img box 0 0 y x).re : ℝ) : ℂ) := by
    show coilRsSmoothed ny nx img box 0 0 y x = _
    apply Complex.ext
    · rw [Complex.ofReal_re]
    · rw [Complex.ofReal_im]
      exact coilRsSmoothed_diag_im ny nx img box 0 y x
  unfold calculate_csm_walsh
  exact walshPixel_one_coil _ _ hs hR00 niter

/-- C6 (amended): on a single-coil stack, at every pixel where the SMOOTHED
squared magnitude is positive, the power map value equals the smoothing filter
applied to `|img|²` (not `|img|²` itself, which the claim states and which
differs whenever the image is not locally constant), and the sensitivity is 1
on the single coil. -/
theorem walsh_single_coil (ny nx : ℕ) (img : ℕ → ℕ → ℕ → ℂ)
    (box niter y x : ℕ)
    (hs : 0 < (coilRsSmoothed ny nx img box 0 0 y x).re) :
    (coilRsSmoothed ny nx img box 0 0 y x).re =
      uniform_filter2 box ny nx (fun a b => Complex.normSq (img 0 a b)) y x ∧
    ∃ v, calculate_csm_walsh 1 ny nx img box niter y x =
      some (v, (coilRsSmoothed ny nx img box 0 0 y x).re) ∧ v 0 = 1 :=
  ⟨coilRsSmoothed_diag_re ny nx img box 0 y x,
   walsh_single_coil_core ny nx img box niter y x hs⟩

theorem coilRsSmoothed_const_one (p q : ℕ) :
    coilRsSmoothed 1 1 (fun _ _ _ => 1) 1 p q 0 0 = 1 := by
  unfold coilRsSmoothed
  rw [smooth2_box_one _ (by norm_num) (by norm_num)]
  simp [coilRs]

/-- C6 witness. -/
theorem walsh_single_coil_witness :
    0 < (coilRsSmoothed 1 1 (fun _ _ _ => 1) 1 0 0 0 0).re ∧
    ∃ v, calculate_csm_walsh 1 1 1 (fun _ _ _ => 1) 1 3 0 0 =
      some (v, (coilRsSmoothed 1 1 (fun _ _ _ => 1) 1 0 0 0 0).re) ∧ v 0 = 1 :=
  have hs : 0 < (coilRsSmoothed 1 1 (fun _ _ _ => 1) 1 0 0 0 0).re := by
    rw [coilRsSmoothed_const_one]
    simp
  ⟨hs, (walsh_single_coil 1 1 (fun _ _ _ => 1) 1 3 0 0 hs).2⟩

theorem coilRs_oneCoil (p q : ℕ) :
    coilRs imgOneCoil p q = fun _ b => if b = 0 then (1 : ℂ) else 0 := by
  funext a b
  unfold coilRs imgOneCoil
  by_cases hb : b = 0 <;> simp [hb]

theorem uf1_oneCoil_row : uf1 5 2 (fun b => if b = 0 then (1 : ℝ) else 0) 0 = 2 / 5 := by
  unfold uf1
  rw [Finset.sum_range_succ, Finset.sum_range_succ, Finset.sum_range_succ,
      Finset.sum_range_succ, Finset.sum_range_one]
  norm_num
  rw [show rIdx 2 (-2) = 1 from by decide, show rIdx 2 (-1) = 0 from by decide,
      show rIdx 2 0 = 0 from by decide, show rIdx 2 1 = 1 from by decide,
      show rIdx 2 2 = 1 from by decide]
  norm_num

theorem coilRsSmoothed_oneCoil (p q : ℕ) :
    coilRsSmoothed 1 2 imgOneCoil 5 p q 0 0 = (((2 : ℝ) / 5 : ℝ) : ℂ) := by
  unfold coilRsSmoothed
  rw [coilRs_oneCoil]
  unfold smooth2
  apply Complex.ext
  · rw [Complex.ofReal_re]
    show uniform_filter2 5 1 2
      (fun a b => ((if b = 0 then (1 : ℂ) else 0)).re) 0 0 = 2 / 5
    have hre : (fun (a b : ℕ) => ((if b = 0 then (1 : ℂ) else 0) : ℂ).re) =
        fun (_ b : ℕ) => if b = 0 then (1 : ℝ) else 0 := by
      funext a b
      by_cases hb : b = 0 <;> simp [hb]
    rw [hre]
    unfold uniform_filter2
    have hin : (fun b => uf1 5 1 (fun _ => if b = 0 then (1 : ℝ) else 0) 0) =
        fun b => if b = 0 then (1 : ℝ) else 0 := by
      funext b
      exact uf1_const 1 _ 0 (by norm_num)
    rw [hin]
    exact uf1_oneCoil_row
  · rw [Complex.ofReal_im]
    show uniform_filter2 5 1 2
      (fun a b => ((if b = 0 then (1 : ℂ) else 0)).im) 0 0 = 0
    have him : (fun (a b : ℕ) => ((if b = 0 then (1 : ℂ) else 0) : ℂ).im) =
        fun (_ _ : ℕ) => (0 : ℝ) := by
      funext a b
      by_cases hb : b = 0 <;> simp [hb]
    rw [him]
    exact uniform_filter2_zero 5 1 2 0 0

/-- C6 counterexample: on the single-coil `(1,1,2)` stack with pixel values
`1` and `0`, smoothing 5 and 3 iterations, the power at pixel (0,0) is `2/5`
(the smoothed squared magnitude), while `|img(0,0)|² = 1`. -/
theorem walsh_single_coil_cex :
    (calculate_csm_walsh 1 1 2 imgOneCoil 5 3 0 0).map Prod.snd =
      some ((2 : ℝ) / 5) ∧
    Complex.normSq (imgOneCoil 0 0 0) = 1 ∧ ((2 : ℝ) / 5) ≠ 1 := by
  refine ⟨?_, ?_, by norm_num⟩
  · have hs : 0 < (coilRsSmoothed 1 2 imgOneCoil 5 0 0 0 0).re := by
      rw [coilRsSmoothed_oneCoil 0 0, Complex.ofReal_re]
      norm_num
    obtain ⟨v, hv, hv0⟩ := walsh_single_coil_core 1 2 imgOneCoil 5 3 0 0 hs
    rw [hv]
    show some ((coilRsSmoothed 1 2 imgOneCoil 5 0 0 0 0).re) = some ((2 : ℝ) / 5)
    rw [coilRsSmoothed_oneCoil 0 0, Complex.ofReal_re]
  · unfold imgOneCoil
    simp
